import Mathlib

/-!
Verification of the traversal engine of the `dotao` repository
(`file-structure/src/iter.rs`): the node iterator `FilesIter`, the path
iterator `PathsIter`, and their configuration flags.

The tree data model (`File`, `FileType`) lives in source files that are not
part of the provided sources; it is modelled from the specification's data
model section.  The iterator logic is translated directly from
`file-structure/src/iter.rs`.
-/

set_option autoImplicit false

namespace Dotao

/-- Modelled from the spec: a path is a sequence of components.  A component
is either a normal named segment, a parent-directory segment (`..`), or the
filesystem root (`/`); `Path::file_name` returns the final component when it
is a normal segment and nothing otherwise. -/
inductive Component : Type where
  | normal : String → Component
  | parentDir : Component
  | rootDir : Component
deriving DecidableEq

mutual

/-- Modelled from the spec: the tagged type of a tree node.  `Directory`
carries the ordered list of owned child nodes (`FileType` of
`file-structure/src/file_type.rs`, absent from the provided sources). -/
inductive FileType (T : Type) : Type where
  | Regular : FileType T
  | Symlink : FileType T
  | Directory : List (File T) → FileType T

/-- Modelled from the spec: a tree node with a path, a type tag and an
opaque optional payload (`File` of `file-structure/src/file.rs`, absent from
the provided sources). -/
inductive File (T : Type) : Type where
  | mk : List Component → FileType T → Option T → File T

end

end Dotao

namespace Dotao

variable {T : Type}

/-- Path projection of a node. -/
def File.path : File T → List Component
  | .mk p _ _ => p

/-- Type-tag projection of a node. -/
def File.file_type : File T → FileType T
  | .mk _ ft _ => ft

/-- Test for the directory variant (`FileType::is_dir`). -/
def FileType.is_dir : FileType T → Bool
  | .Directory _ => true
  | _ => false

/-- Test for the regular-file variant (`FileType::is_regular`). -/
def FileType.is_regular : FileType T → Bool
  | .Regular => true
  | _ => false

/-- Test for the symlink variant (`FileType::is_symlink`). -/
def FileType.is_symlink : FileType T → Bool
  | .Symlink => true
  | _ => false

/-- Rust `Path::file_name`: the final component of a path when it is a
normal segment. -/
def filePathFileName : List Component → Option String :=
  fun p =>
    match p.getLast? with
    | some (Component.normal s) => some s
    | _ => none

mutual

/-- Number of nodes of the tree rooted at a node (measure used for
termination of the traversal). -/
def File.size : File T → Nat
  | .mk _ ft _ => 1 + FileType.sizeFT ft
termination_by f => sizeOf f
decreasing_by simp; omega

/-- Number of nodes below a type tag. -/
def FileType.sizeFT : FileType T → Nat
  | .Regular => 0
  | .Symlink => 0
  | .Directory cs => File.sizeList cs
termination_by ft => sizeOf ft
decreasing_by simp

/-- Total number of nodes of a list of trees. -/
def File.sizeList : List (File T) → Nat
  | [] => 0
  | c :: cs => File.size c + File.sizeList cs
termination_by cs => sizeOf cs
decreasing_by all_goals (simp; try omega)

end

/-- Rust `usize::MAX` on a 64-bit platform, the default `max_depth`. -/
def usizeMax : Nat := 2 ^ 64 - 1

/-- The node iterator (`FilesIter` of `file-structure/src/iter.rs`): a
double-ended work queue of (node, depth) pairs — directories at the back,
files at the front, the list head playing the role of the deque front — plus
the traversal configuration. -/
structure FilesIter (T : Type) : Type where
  file_deque : List (File T × Nat)
  current_depth : Nat
  files_before_directories : Bool
  skip_dirs : Bool
  skip_regular_files : Bool
  skip_symlinks : Bool
  min_depth : Nat
  max_depth : Nat

/-- Construction of the node iterator (`FilesIter::new`): a queue holding
just the start file at depth 0, and the default configuration. -/
def FilesIter.new (start_file : File T) : FilesIter T where
  file_deque := [(start_file, 0)]
  current_depth := 0
  files_before_directories := false
  skip_dirs := false
  skip_regular_files := false
  skip_symlinks := false
  min_depth := 0
  max_depth := usizeMax

/-- Query method `FilesIter::depth`. -/
def FilesIter.depth (self : FilesIter T) : Nat :=
  self.current_depth

/-- Builder method `FilesIter::files_before_directories` (primed because the
field projection carries the Rust name). -/
def FilesIter.files_before_directories' (self : FilesIter T) (arg : Bool) : FilesIter T :=
  { self with files_before_directories := arg }

/-- Builder method `FilesIter::skip_dirs`. -/
def FilesIter.skip_dirs' (self : FilesIter T) (arg : Bool) : FilesIter T :=
  { self with skip_dirs := arg }

/-- Builder method `FilesIter::skip_regular_files`. -/
def FilesIter.skip_regular_files' (self : FilesIter T) (arg : Bool) : FilesIter T :=
  { self with skip_regular_files := arg }

/-- Builder method `FilesIter::skip_symlinks`. -/
def FilesIter.skip_symlinks' (self : FilesIter T) (arg : Bool) : FilesIter T :=
  { self with skip_symlinks := arg }

/-- Builder method `FilesIter::min_depth`. -/
def FilesIter.min_depth' (self : FilesIter T) (min : Nat) : FilesIter T :=
  { self with min_depth := min }

/-- Builder method `FilesIter::max_depth`. -/
def FilesIter.max_depth' (self : FilesIter T) (max : Nat) : FilesIter T :=
  { self with max_depth := max }

/-- The child-enqueueing loop of `FilesIter::next` (iter.rs lines 150-160):
children are walked in reverse order; a directory child is pushed to the
back of the deque, any other child to the front.  Processing the reversed
list `c :: cs` pushes `c` last, hence the recursive call happens first. -/
def pushChildren (d : Nat) : List (File T) → List (File T × Nat) → List (File T × Nat)
  | [], q => q
  | c :: cs, q =>
    let q' := pushChildren d cs q
    if c.file_type.is_dir then q' ++ [(c, d)] else (c, d) :: q'

/-- Total number of tree nodes sitting in the work queue, counting each
queued entry's whole subtree. -/
def queueMeasure : List (File T × Nat) → Nat
  | [] => 0
  | e :: es => e.1.size + queueMeasure es

/-- Expansion step of `FilesIter::next`: if the popped entry is a directory,
enqueue its children one level deeper; otherwise leave the queue alone. -/
def expandChildren (p : File T × Nat) (q : List (File T × Nat)) : List (File T × Nat) :=
  match p.1.file_type with
  | FileType.Directory cs => pushChildren (p.2 + 1) cs q
  | _ => q

/-- The pop-and-expand step of `FilesIter::next` on a nonempty deque with
front `e` and remaining entries `es`: decide the pop side from the back
entry's type, pop, and expand the popped entry's children. -/
def popExpand (fbd : Bool) (e : File T × Nat) (es : List (File T × Nat)) :
    (File T × Nat) × List (File T × Nat) :=
  let back := es.getLastD e
  let pop_from_the_left := fbd || !back.1.file_type.is_dir
  let popped := if pop_from_the_left then e else back
  let rest := if pop_from_the_left then es else (e :: es).dropLast
  (popped, expandChildren popped rest)

theorem size_pos (f : File T) : 1 ≤ f.size := by
  cases f with
  | mk p ft pl => simp [File.size]

theorem queueMeasure_append (l₁ l₂ : List (File T × Nat)) :
    queueMeasure (l₁ ++ l₂) = queueMeasure l₁ + queueMeasure l₂ := by
  induction l₁ with
  | nil => simp [queueMeasure]
  | cons e es ih => simp [queueMeasure, ih]; omega

theorem queueMeasure_pushChildren (d : Nat) (cs : List (File T)) (q : List (File T × Nat)) :
    queueMeasure (pushChildren d cs q) = File.sizeList cs + queueMeasure q := by
  induction cs with
  | nil => simp [pushChildren, File.sizeList]
  | cons c cs ih =>
    by_cases h : c.file_type.is_dir
    all_goals simp [pushChildren, h, queueMeasure_append, queueMeasure, ih, File.sizeList]
    all_goals omega

theorem queueMeasure_expandChildren (p : File T × Nat) (q : List (File T × Nat)) :
    queueMeasure (expandChildren p q) + 1 = p.1.size + queueMeasure q := by
  obtain ⟨f, d⟩ := p
  cases f with
  | mk pa ft pl =>
    cases ft with
    | Directory cs =>
      simp [expandChildren, File.file_type, queueMeasure_pushChildren, File.size,
        FileType.sizeFT]
      omega
    | Regular => simp [expandChildren, File.file_type, File.size, FileType.sizeFT]; omega
    | Symlink => simp [expandChildren, File.file_type, File.size, FileType.sizeFT]; omega

theorem queueMeasure_popExpand (fbd : Bool) (e : File T × Nat) (es : List (File T × Nat)) :
    queueMeasure (popExpand fbd e es).2 + 1 = queueMeasure (e :: es) := by
  by_cases h : (fbd || !(es.getLastD e).1.file_type.is_dir) = true
  · simp only [popExpand, h, if_true]
    rw [queueMeasure_expandChildren]
    simp [queueMeasure]
  · simp only [popExpand, h, if_false]
    rw [queueMeasure_expandChildren]
    have hq : (e :: es).dropLast ++ [(e :: es).getLast (by simp)] = e :: es :=
      List.dropLast_append_getLast (by simp)
    have hgl : (e :: es).getLast (by simp) = es.getLastD e := by
      rw [List.getLast_eq_getLastD]
    calc (es.getLastD e).1.size + queueMeasure ((e :: es).dropLast)
        = queueMeasure ((e :: es).dropLast) + queueMeasure [(es.getLastD e)] := by
          simp [queueMeasure]; omega
      _ = queueMeasure (e :: es) := by
          rw [← queueMeasure_append, ← hgl, hq]

theorem queueMeasure_popExpand_lt (fbd : Bool) (e : File T × Nat) (es : List (File T × Nat)) :
    queueMeasure (popExpand fbd e es).2 < queueMeasure (e :: es) := by
  have := queueMeasure_popExpand fbd e es
  omega

/-- The `Iterator::next` implementation for `FilesIter` (iter.rs lines
121-176).  An empty deque reports exhaustion; otherwise the entry popped by
`popExpand` is recorded in `current_depth`, its children are enqueued, and
it is yielded unless the depth bounds or the type-skip predicate (which
tests `skip_dirs && is_dir` twice and never `skip_symlinks`, exactly as the
source does) suppress it, in which case `next` retries on the updated
state. -/
def FilesIter.next (self : FilesIter T) : Option (File T) × FilesIter T :=
  match h : self.file_deque with
  | [] => (none, self)
  | e :: es =>
    let pe := popExpand self.files_before_directories e es
    let self' : FilesIter T := { self with current_depth := pe.1.2, file_deque := pe.2 }
    if decide (self'.min_depth > pe.1.2) || decide (self'.max_depth < pe.1.2) then
      self'.next
    else if (self'.skip_regular_files && pe.1.1.file_type.is_regular)
        || (self'.skip_dirs && pe.1.1.file_type.is_dir)
        || (self'.skip_dirs && pe.1.1.file_type.is_dir) then
      self'.next
    else
      (some pe.1.1, self')
termination_by queueMeasure self.file_deque
decreasing_by
  all_goals simp only [h]
  all_goals exact queueMeasure_popExpand_lt _ e es

theorem queueMeasure_expand_head (q : List (File T × Nat)) (popped : File T × Nat)
    (hp : q.head? = some popped) :
    queueMeasure (expandChildren popped q.tail) < queueMeasure q := by
  cases q with
  | nil => simp at hp
  | cons e es =>
    have he : popped = e := by
      simpa using hp.symm
    subst he
    have h1 := queueMeasure_expandChildren popped es
    have := size_pos popped.1
    simp only [List.tail_cons, queueMeasure]
    omega

theorem queueMeasure_expand_last (q : List (File T × Nat)) (popped : File T × Nat)
    (hp : q.getLast? = some popped) :
    queueMeasure (expandChildren popped q.dropLast) < queueMeasure q := by
  have hne : q ≠ [] := by
    intro h
    subst h
    simp at hp
  have hgl : q.getLast hne = popped := by
    rw [List.getLast?_eq_getLast q hne, Option.some.injEq] at hp
    exact hp
  have hq : q.dropLast ++ [popped] = q := by
    rw [← hgl]
    exact List.dropLast_append_getLast hne
  have h1 := queueMeasure_expandChildren popped q.dropLast
  have h2 : queueMeasure q = queueMeasure q.dropLast + popped.1.size := by
    conv_lhs => rw [← hq]
    rw [queueMeasure_append]
    simp [queueMeasure]
  have := size_pos popped.1
  omega

theorem queueMeasure_expand_if (q : List (File T × Nat)) (b : Bool) (popped : File T × Nat)
    (hp : (if b then q.head? else q.getLast?) = some popped) :
    queueMeasure (expandChildren popped (if b then q.tail else q.dropLast)) < queueMeasure q := by
  cases b with
  | true =>
    simp only [if_true] at hp ⊢
    exact queueMeasure_expand_head q popped hp
  | false =>
    rw [if_neg (by simp)] at hp
    rw [if_neg (by simp)]
    exact queueMeasure_expand_last q popped hp

/-- The same `next`, instrumented for panic-freedom: every deque access the
Rust source performs through `.unwrap()` (`back()`, `pop_front()`,
`pop_back()`) is modelled by its fallible variant, and a failing access
makes the whole call return `none` the way the Rust call would panic. -/
def FilesIter.nextSafe (self : FilesIter T) : Option (Option (File T) × FilesIter T) :=
  if self.file_deque.isEmpty then some (none, self)
  else
    match hb : self.file_deque.getLast? with
    | none => none
    | some back =>
      let pop_from_the_left := self.files_before_directories || !back.1.file_type.is_dir
      match hp : (if pop_from_the_left then self.file_deque.head? else self.file_deque.getLast?) with
      | none => none
      | some popped =>
        let rest := if pop_from_the_left then self.file_deque.tail else self.file_deque.dropLast
        let self' : FilesIter T :=
          { self with current_depth := popped.2, file_deque := expandChildren popped rest }
        if decide (self'.min_depth > popped.2) || decide (self'.max_depth < popped.2) then
          self'.nextSafe
        else if (self'.skip_regular_files && popped.1.file_type.is_regular)
            || (self'.skip_dirs && popped.1.file_type.is_dir)
            || (self'.skip_dirs && popped.1.file_type.is_dir) then
          self'.nextSafe
        else
          some (some popped.1, self')
termination_by queueMeasure self.file_deque
decreasing_by
  all_goals exact queueMeasure_expand_if _ _ _ hp

/-- The filter predicate of `FilesIter::next`, exactly as the source applies
it: an entry survives when it is inside the depth bounds and the (buggy)
type-skip disjunction does not fire. -/
def passCfg (s : FilesIter T) (p : File T × Nat) : Bool :=
  !(decide (s.min_depth > p.2) || decide (s.max_depth < p.2))
  && !((s.skip_regular_files && p.1.file_type.is_regular)
      || (s.skip_dirs && p.1.file_type.is_dir)
      || (s.skip_dirs && p.1.file_type.is_dir))

/-- The iterator state after `FilesIter::next` has popped and expanded the
front entry `e` of its deque (before any filtering decision). -/
def stepState (s : FilesIter T) (e : File T × Nat) (es : List (File T × Nat)) : FilesIter T :=
  { s with
    current_depth := (popExpand s.files_before_directories e es).1.2
    file_deque := (popExpand s.files_before_directories e es).2 }

theorem next_nil (s : FilesIter T) (h : s.file_deque = []) : s.next = (none, s) := by
  rw [FilesIter.next.eq_def]
  split
  · rfl
  · rename_i e es heq
    rw [h] at heq
    exact absurd heq (by simp)

theorem next_cons_skip (s : FilesIter T) (e : File T × Nat) (es : List (File T × Nat))
    (h : s.file_deque = e :: es)
    (hp : passCfg s (popExpand s.files_before_directories e es).1 = false) :
    s.next = (stepState s e es).next := by
  rw [FilesIter.next.eq_def]
  split
  · rename_i heq
    rw [h] at heq
    exact absurd heq (by simp)
  · rename_i e' es' heq
    rw [h] at heq
    obtain ⟨rfl, rfl⟩ : e = e' ∧ es = es' := by
      constructor
      · exact (List.cons.injEq _ _ _ _ ▸ heq).1
      · exact (List.cons.injEq _ _ _ _ ▸ heq).2
    simp only [passCfg, Bool.and_eq_false_iff, Bool.not_eq_false'] at hp
    rcases hp with hp | hp
    · rw [if_pos hp]
      rfl
    · by_cases h1 : (decide (s.min_depth > (popExpand s.files_before_directories e es).1.2)
          || decide (s.max_depth < (popExpand s.files_before_directories e es).1.2)) = true
      · rw [if_pos h1]
        rfl
      · rw [if_neg (by simpa using h1), if_pos hp]
        rfl

theorem next_cons_yield (s : FilesIter T) (e : File T × Nat) (es : List (File T × Nat))
    (h : s.file_deque = e :: es)
    (hp : passCfg s (popExpand s.files_before_directories e es).1 = true) :
    s.next = (some (popExpand s.files_before_directories e es).1.1, stepState s e es) := by
  rw [FilesIter.next.eq_def]
  split
  · rename_i heq
    rw [h] at heq
    exact absurd heq (by simp)
  · rename_i e' es' heq
    rw [h] at heq
    obtain ⟨rfl, rfl⟩ : e = e' ∧ es = es' := by
      constructor
      · exact (List.cons.injEq _ _ _ _ ▸ heq).1
      · exact (List.cons.injEq _ _ _ _ ▸ heq).2
    simp only [passCfg, Bool.and_eq_true, Bool.not_eq_true'] at hp
    rw [if_neg (by simp [hp.1]), if_neg (by simp [hp.2])]
    rfl

/-- The configuration-independent pop sequence of a work queue: the entries
`FilesIter::next` pops, in order, before any filtering. -/
def popSeq (fbd : Bool) (q : List (File T × Nat)) : List (File T × Nat) :=
  match q with
  | [] => []
  | e :: es => (popExpand fbd e es).1 :: popSeq fbd (popExpand fbd e es).2
termination_by queueMeasure q
decreasing_by
  exact queueMeasure_popExpand_lt _ e es

theorem next_some_measure_lt :
    ∀ (n : Nat) (s : FilesIter T) (f : File T) (s' : FilesIter T),
      queueMeasure s.file_deque = n → s.next = (some f, s') →
      queueMeasure s'.file_deque < queueMeasure s.file_deque := by
  intro n
  induction n using Nat.strong_induction_on with
  | _ n ih =>
    intro s f s' hn h
    rcases hq : s.file_deque with _ | ⟨e, es⟩
    · rw [next_nil s hq] at h
      cases h
    · have hstep : queueMeasure (stepState s e es).file_deque
          < queueMeasure (e :: es) := by
        have h1 : (stepState s e es).file_deque
            = (popExpand s.files_before_directories e es).2 := rfl
        rw [h1]
        exact queueMeasure_popExpand_lt _ e es
      have hn' : queueMeasure (e :: es) = n := by
        rw [← hn, hq]
      by_cases hp : passCfg s (popExpand s.files_before_directories e es).1 = true
      · rw [next_cons_yield s e es hq hp] at h
        injection h with h1 h2
        subst h2
        exact hstep
      · rw [next_cons_skip s e es hq (by simpa using hp)] at h
        have hrec := ih (queueMeasure (stepState s e es).file_deque) (hn' ▸ hstep)
          (stepState s e es) f s' rfl h
        omega

/-- The observable traversal: the list of all nodes the iterator yields, each
paired with the value `depth()` reports right after it is yielded. -/
def FilesIter.yieldsWithDepth (self : FilesIter T) : List (File T × Nat) :=
  match h : self.next with
  | (none, _) => []
  | (some f, s') => (f, s'.current_depth) :: s'.yieldsWithDepth
termination_by queueMeasure self.file_deque
decreasing_by
  exact next_some_measure_lt (queueMeasure self.file_deque) self f s' rfl h

theorem yields_none (s : FilesIter T) (s₂ : FilesIter T) (h : s.next = (none, s₂)) :
    s.yieldsWithDepth = [] := by
  rw [FilesIter.yieldsWithDepth.eq_def]
  split
  · rfl
  · rename_i f s' heq
    rw [h] at heq
    cases heq

theorem yields_some (s : FilesIter T) (f : File T) (s' : FilesIter T)
    (h : s.next = (some f, s')) :
    s.yieldsWithDepth = (f, s'.current_depth) :: s'.yieldsWithDepth := by
  rw [FilesIter.yieldsWithDepth.eq_def]
  split
  · rename_i s₂ heq
    rw [h] at heq
    cases heq
  · rename_i f' s₂ heq
    rw [h] at heq
    injection heq with h1 h2
    injection h1 with h1
    subst h1
    subst h2
    rfl

theorem popSeq_nil (fbd : Bool) : popSeq fbd ([] : List (File T × Nat)) = [] := by
  rw [popSeq]

theorem popSeq_cons (fbd : Bool) (e : File T × Nat) (es : List (File T × Nat)) :
    popSeq fbd (e :: es) =
      (popExpand fbd e es).1 :: popSeq fbd (popExpand fbd e es).2 := by
  rw [popSeq]

theorem passCfg_stepState (s : FilesIter T) (e : File T × Nat) (es : List (File T × Nat))
    (p : File T × Nat) : passCfg (stepState s e es) p = passCfg s p := by
  rfl

/-- Master lemma: the yielded sequence is exactly the configuration-free pop
sequence of the work queue, filtered by the source's filter predicate. -/
theorem yields_eq_filter_popSeq :
    ∀ (n : Nat) (s : FilesIter T), queueMeasure s.file_deque = n →
      s.yieldsWithDepth =
        (popSeq s.files_before_directories s.file_deque).filter (passCfg s) := by
  intro n
  induction n using Nat.strong_induction_on with
  | _ n ih =>
    intro s hn
    rcases hq : s.file_deque with _ | ⟨e, es⟩
    · rw [yields_none s s (next_nil s hq), popSeq_nil]
      rfl
    · have hque : (stepState s e es).file_deque
          = (popExpand s.files_before_directories e es).2 := rfl
      have hmeas : queueMeasure (stepState s e es).file_deque < n := by
        rw [← hn, hque, hq]
        exact queueMeasure_popExpand_lt _ e es
      have hstep := ih (queueMeasure (stepState s e es).file_deque) hmeas
        (stepState s e es) rfl
      have hfbd : (stepState s e es).files_before_directories
          = s.files_before_directories := rfl
      have hpass : passCfg (stepState s e es) = passCfg s := by
        funext p
        exact passCfg_stepState s e es p
      rw [hfbd, hque, hpass] at hstep
      have hfilter : (popSeq s.files_before_directories (e :: es)).filter (passCfg s)
          = if passCfg s (popExpand s.files_before_directories e es).1 then
              (popExpand s.files_before_directories e es).1 ::
                ((popSeq s.files_before_directories
                  (popExpand s.files_before_directories e es).2).filter (passCfg s))
            else
              (popSeq s.files_before_directories
                (popExpand s.files_before_directories e es).2).filter (passCfg s) := by
        rw [popSeq_cons, List.filter_cons]
      by_cases hp : passCfg s (popExpand s.files_before_directories e es).1 = true
      · have hnext := next_cons_yield s e es hq hp
        rw [yields_some s _ _ hnext]
        have hdep : (stepState s e es).current_depth
            = (popExpand s.files_before_directories e es).1.2 := rfl
        rw [hfilter, if_pos hp, hdep, hstep]
      · have hnext := next_cons_skip s e es hq (by simpa using hp)
        have hy : s.yieldsWithDepth = (stepState s e es).yieldsWithDepth := by
          rcases h2 : (stepState s e es).next with ⟨o, s₂⟩
          cases o with
          | none =>
            rw [yields_none s s₂ (hnext.trans h2), yields_none _ s₂ h2]
          | some f =>
            rw [yields_some s f s₂ (hnext.trans h2), yields_some _ f s₂ h2]
        rw [hy, hstep, hfilter, if_neg hp]


/-- Fuel-indexed executable twin of `popSeq`: returns the pop sequence when
the fuel suffices to drain the queue, nothing otherwise. -/
def popSeqFuel (fbd : Bool) : Nat → List (File T × Nat) → Option (List (File T × Nat))
  | _, [] => some []
  | 0, _ :: _ => none
  | n + 1, e :: es =>
    (popSeqFuel fbd n (popExpand fbd e es).2).map ((popExpand fbd e es).1 :: ·)

theorem popSeq_eq_fuel (fbd : Bool) :
    ∀ (n : Nat) (q : List (File T × Nat)) (l : List (File T × Nat)),
      popSeqFuel fbd n q = some l → popSeq fbd q = l := by
  intro n
  induction n with
  | zero =>
    intro q l h
    cases q with
    | nil =>
      rw [popSeq_nil]
      simpa [popSeqFuel] using h.symm
    | cons e es => simp [popSeqFuel] at h
  | succ n ih =>
    intro q l h
    cases q with
    | nil =>
      rw [popSeq_nil]
      simpa [popSeqFuel] using h.symm
    | cons e es =>
      rw [popSeq_cons]
      simp only [popSeqFuel, Option.map_eq_some'] at h
      obtain ⟨l', hl', rfl⟩ := h
      rw [ih _ l' hl']

/-- Evaluation form of the master lemma: a successful fuel run determines
the yielded sequence. -/
theorem yields_eval (s : FilesIter T) (n : Nat)
    (h : (popSeqFuel s.files_before_directories n s.file_deque).isSome = true) :
    s.yieldsWithDepth =
      ((popSeqFuel s.files_before_directories n s.file_deque).getD []).filter (passCfg s) := by
  obtain ⟨l, hl⟩ := Option.isSome_iff_exists.mp h
  rw [yields_eq_filter_popSeq (queueMeasure s.file_deque) s rfl,
    popSeq_eq_fuel _ n _ l hl, hl]
  rfl


/-- Fuel-indexed executable twin of a single `next` call: the fuel bounds the
number of internal filtered-entry retries. -/
def nextFuel (fuel : Nat) (s : FilesIter T) : Option (Option (File T) × FilesIter T) :=
  match s.file_deque with
  | [] => some (none, s)
  | e :: es =>
    if passCfg s (popExpand s.files_before_directories e es).1 then
      some (some (popExpand s.files_before_directories e es).1.1, stepState s e es)
    else
      match fuel with
      | 0 => none
      | n + 1 => nextFuel n (stepState s e es)

theorem next_eq_fuel :
    ∀ (fuel : Nat) (s : FilesIter T) (r : Option (File T) × FilesIter T),
      nextFuel fuel s = some r → s.next = r := by
  intro fuel
  induction fuel with
  | zero =>
    intro s r h
    rcases hq : s.file_deque with _ | ⟨e, es⟩
    · rw [nextFuel] at h
      simp only [hq] at h
      exact (next_nil s hq).trans (Option.some_injective _ h)
    · rw [nextFuel] at h
      simp only [hq] at h
      by_cases hp : passCfg s (popExpand s.files_before_directories e es).1 = true
      · rw [if_pos hp] at h
        exact (next_cons_yield s e es hq hp).trans (Option.some_injective _ h)
      · rw [if_neg hp] at h
        cases h
  | succ n ih =>
    intro s r h
    rcases hq : s.file_deque with _ | ⟨e, es⟩
    · rw [nextFuel] at h
      simp only [hq] at h
      exact (next_nil s hq).trans (Option.some_injective _ h)
    · rw [nextFuel] at h
      simp only [hq] at h
      by_cases hp : passCfg s (popExpand s.files_before_directories e es).1 = true
      · rw [if_pos hp] at h
        exact (next_cons_yield s e es hq hp).trans (Option.some_injective _ h)
      · rw [if_neg hp] at h
        exact (next_cons_skip s e es hq (by simpa using hp)).trans
          (ih (stepState s e es) r h)

/-- Evaluation form for a single `next` call. -/
theorem next_eval (fuel : Nat) (s : FilesIter T) (h : (nextFuel fuel s).isSome = true) :
    s.next = (nextFuel fuel s).getD (none, s) := by
  obtain ⟨r, hr⟩ := Option.isSome_iff_exists.mp h
  rw [next_eq_fuel fuel s r hr, hr]
  rfl

/-- The path iterator (`PathsIter` of `file-structure/src/iter.rs`): wraps a
node iterator and projects nodes to paths. -/
structure PathsIter (T : Type) : Type where
  file_iter : FilesIter T
  only_show_last_segment : Bool

/-- Private constructor `PathsIter::new`. -/
def PathsIter.new (file_iter : FilesIter T) : PathsIter T where
  file_iter := file_iter
  only_show_last_segment := false

/-- Conversion `FilesIter::paths`. -/
def FilesIter.paths (self : FilesIter T) : PathsIter T :=
  PathsIter.new self

/-- Builder method `PathsIter::only_show_last_segment`. -/
def PathsIter.only_show_last_segment' (self : PathsIter T) (arg : Bool) : PathsIter T :=
  { self with only_show_last_segment := arg }

/-- Query method `PathsIter::depth`, delegating to the node iterator. -/
def PathsIter.depth (self : PathsIter T) : Nat :=
  self.file_iter.depth

/-- `PathsIter::next_ref`: pull a node from the wrapped iterator and project
it to its path; with the last-segment flag set, apply `Path::file_name`,
whose `none` result is propagated as the call's result. -/
def PathsIter.next_ref (self : PathsIter T) : Option (List Component) × PathsIter T :=
  match self.file_iter.next with
  | (none, fi) => (none, { self with file_iter := fi })
  | (some file, fi) =>
    let self' : PathsIter T := { self with file_iter := fi }
    if self'.only_show_last_segment then
      ((filePathFileName file.path).map (fun s => [Component.normal s]), self')
    else
      (some file.path, self')

/-- The `Iterator::next` implementation for `PathsIter`: `next_ref` followed
by `to_path_buf`, which is the identity on the model's paths; the `?` on
`next_ref` propagates its `none`. -/
def PathsIter.next (self : PathsIter T) : Option (List Component) × PathsIter T :=
  match self.next_ref with
  | (none, s) => (none, s)
  | (some p, s) => (some p, s)


theorem passCfg_noskip (s : FilesIter T) (p : File T × Nat)
    (h1 : s.skip_regular_files = false) (h2 : s.skip_dirs = false) :
    passCfg s p = decide (s.min_depth ≤ p.2 ∧ p.2 ≤ s.max_depth) := by
  simp only [passCfg, h1, h2, Bool.false_and, Bool.or_self, Bool.or_false, Bool.not_false,
    Bool.and_true]
  by_cases ha : s.min_depth > p.2
  · simp [ha, show ¬(s.min_depth ≤ p.2 ∧ p.2 ≤ s.max_depth) from by omega]
  · by_cases hb : s.max_depth < p.2
    · simp [ha, hb, show ¬(s.min_depth ≤ p.2 ∧ p.2 ≤ s.max_depth) from by omega]
    · simp [ha, hb, show s.min_depth ≤ p.2 ∧ p.2 ≤ s.max_depth from by omega]

theorem passCfg_bounds_eval (t : File T) (a b : Nat) (p : File T × Nat) :
    passCfg (((FilesIter.new t).min_depth' a).max_depth' b) p
      = decide (a ≤ p.2 ∧ p.2 ≤ b) := by
  rw [passCfg_noskip _ _ rfl rfl]
  rfl

theorem passCfg_new_eval (t : File T) (p : File T × Nat) :
    passCfg (FilesIter.new t) p = decide (p.2 ≤ usizeMax) := by
  rw [passCfg_noskip _ _ rfl rfl]
  simp only [decide_eq_decide]
  constructor
  · intro h
    exact h.2
  · intro h
    exact ⟨Nat.zero_le _, h⟩

theorem passCfg_default_fbd_eval (t : File T) (b : Bool) (p : File T × Nat) :
    passCfg ((FilesIter.new t).files_before_directories' b) p = decide (p.2 ≤ usizeMax) := by
  rw [passCfg_noskip _ _ rfl rfl]
  simp only [decide_eq_decide]
  constructor
  · intro h
    exact h.2
  · intro h
    exact ⟨Nat.zero_le _, h⟩

/-- Concrete regular-file node used in the example trees. -/
def exRegular (p : List Component) : File Unit :=
  File.mk p FileType.Regular none

/-- Concrete symlink node used in the example trees. -/
def exSymlink (p : List Component) : File Unit :=
  File.mk p FileType.Symlink none

/-- Concrete directory node used in the example trees. -/
def exDirectory (p : List Component) (cs : List (File Unit)) : File Unit :=
  File.mk p (FileType.Directory cs) none

/-- Directory containing a single symlink. -/
def c1tree : File Unit :=
  exDirectory [Component.normal "d"]
    [exSymlink [Component.normal "d", Component.normal "s"]]


/-- C1: evaluation of the code at the failing input.  The tree is a
directory holding one symlink; with `skip_symlinks(true)` the iterator still
yields the symlink (second entry of the map is `true`), because the filter
in `FilesIter::next` tests `skip_dirs && is_dir()` twice and never tests
`skip_symlinks`. -/
theorem c1_skip_symlinks_not_applied :
    (((FilesIter.new c1tree).skip_symlinks' true).yieldsWithDepth).map
      (fun e => e.1.file_type.is_symlink) = [false, true] := by
  rw [yields_eval _ 5 (by decide)]
  decide

/-- C4: `min_depth(a).max_depth(b)` yields exactly the subsequence of the
unfiltered traversal whose depth lies in the inclusive interval `[a, b]`
(for any `b` expressible as a `usize`), in the same relative order, the
subtree below a depth-suppressed ancestor still being explored; and when
`a > b` the yielded sequence is empty rather than an error. -/
theorem c4_depth_bounds_subsequence (t : File T) (a b : Nat) :
    (b ≤ usizeMax →
      (((FilesIter.new t).min_depth' a).max_depth' b).yieldsWithDepth =
        ((FilesIter.new t).yieldsWithDepth).filter (fun p => decide (a ≤ p.2 ∧ p.2 ≤ b)))
    ∧ (b < a →
      (((FilesIter.new t).min_depth' a).max_depth' b).yieldsWithDepth = []) := by
  constructor
  · intro hb
    rw [yields_eq_filter_popSeq _ _ rfl, yields_eq_filter_popSeq _ _ rfl, List.filter_filter]
    have e1 : (((FilesIter.new t).min_depth' a).max_depth' b).files_before_directories
        = false := rfl
    have e2 : (((FilesIter.new t).min_depth' a).max_depth' b).file_deque = [(t, 0)] := rfl
    have e3 : (FilesIter.new t).files_before_directories = false := rfl
    have e4 : (FilesIter.new t).file_deque = [(t, 0)] := rfl
    rw [e1, e2, e3, e4]
    apply List.filter_congr
    intro p hp
    rw [passCfg_bounds_eval, passCfg_new_eval]
    by_cases hin : a ≤ p.2 ∧ p.2 ≤ b
    · simp [hin, show p.2 ≤ usizeMax from le_trans hin.2 hb]
    · simp [hin]
  · intro hab
    rw [yields_eq_filter_popSeq _ _ rfl]
    apply List.filter_eq_nil_iff.mpr
    intro p hp
    rw [passCfg_bounds_eval]
    simp only [decide_eq_true_eq]
    omega

/-- Tree used by the concrete depth-bound witness. -/
def c4tree : File Unit :=
  exDirectory [Component.normal "r"]
    [exDirectory [Component.normal "r", Component.normal "d"]
      [exRegular [Component.normal "r", Component.normal "d", Component.normal "f"]],
     exRegular [Component.normal "r", Component.normal "g"]]

theorem c4_depth_bounds_witness :
    ((((FilesIter.new c4tree).min_depth' 1).max_depth' 2).yieldsWithDepth =
      ((FilesIter.new c4tree).yieldsWithDepth).filter (fun p => decide (1 ≤ p.2 ∧ p.2 ≤ 2)))
    ∧ (((FilesIter.new c4tree).min_depth' 2).max_depth' 1).yieldsWithDepth = [] :=
  ⟨(c4_depth_bounds_subsequence c4tree 1 2).1 (by decide),
   (c4_depth_bounds_subsequence c4tree 2 1).2 (by decide)⟩


/-- Child file of the depth-counterexample tree. -/
def c6child : File Unit := exRegular [Component.normal "a", Component.normal "b"]

/-- Directory with one regular child, traversed with `max_depth(0)`. -/
def c6tree : File Unit := exDirectory [Component.normal "a"] [c6child]

/-- Initial iterator for the depth counterexample. -/
def c6state0 : FilesIter Unit := (FilesIter.new c6tree).max_depth' 0

/-- State after the first `next` call on `c6state0`. -/
def c6state1 : FilesIter Unit where
  file_deque := [(c6child, 1)]
  current_depth := 0
  files_before_directories := false
  skip_dirs := false
  skip_regular_files := false
  skip_symlinks := false
  min_depth := 0
  max_depth := 0

/-- State after the second `next` call on `c6state0`. -/
def c6state2 : FilesIter Unit where
  file_deque := []
  current_depth := 1
  files_before_directories := false
  skip_dirs := false
  skip_regular_files := false
  skip_symlinks := false
  min_depth := 0
  max_depth := 0

/-- C6 counterexample: with `max_depth(0)` on a two-node tree, the first
`next` yields the root and `depth()` reports 0; the second `next` pops the
depth-1 child, suppresses it, reports exhaustion — and `depth()` now
reports 1, not the depth 0 of the most recently yielded entry. -/
theorem c6_counterexample :
    c6state0.next = (some c6tree, c6state1)
    ∧ c6state1.depth = 0
    ∧ c6state1.next = (none, c6state2)
    ∧ c6state2.depth = 1
    ∧ ¬c6state2.depth = 0 := by
  refine ⟨?_, rfl, ?_, rfl, by decide⟩
  · rw [next_eval 5 c6state0 (by decide)]
    rfl
  · rw [next_eval 5 c6state1 (by decide)]
    rfl

/-- C6 amended: `depth()` is 0 before the first pull, and after a `next`
that yields an entry it equals the depth that entry carried in the work
queue (its tree depth); after an exhausting `next` it keeps the depth of
the most recently popped entry, which can exceed the depth of the last
yielded one. -/
theorem c6_depth_amended (t : File T) (s : FilesIter T) (f : File T) (s' : FilesIter T)
    (h : s.next = (some f, s')) :
    (FilesIter.new t).depth = 0
    ∧ (f, s'.depth) ∈ popSeq s.files_before_directories s.file_deque := by
  refine ⟨rfl, ?_⟩
  have hm := yields_eq_filter_popSeq (queueMeasure s.file_deque) s rfl
  rw [yields_some s f s' h] at hm
  have hmem : (f, s'.current_depth)
      ∈ (popSeq s.files_before_directories s.file_deque).filter (passCfg s) := by
    rw [← hm]
    exact List.mem_cons_self _ _
  exact List.mem_of_mem_filter hmem

theorem c6_depth_amended_witness :
    (FilesIter.new c6tree).depth = 0
    ∧ (c6tree, c6state1.depth) ∈ popSeq c6state0.files_before_directories c6state0.file_deque :=
  c6_depth_amended c6tree c6state0 c6tree c6state1
    (by rw [next_eval 5 c6state0 (by decide)]; rfl)

/-- Child of the path-iterator counterexample tree. -/
def c5child : File Unit := exRegular [Component.rootDir, Component.normal "a"]

/-- Root directory whose path `/` has no final component. -/
def c5tree : File Unit := File.mk [Component.rootDir] (FileType.Directory [c5child]) none

/-- Path iterator in only-show-last-segment mode over `c5tree`. -/
def c5piter : PathsIter Unit := ((FilesIter.new c5tree).paths).only_show_last_segment' true

/-- Node-iterator state after yielding the root of `c5tree`. -/
def c5fst1 : FilesIter Unit where
  file_deque := [(c5child, 1)]
  current_depth := 0
  files_before_directories := false
  skip_dirs := false
  skip_regular_files := false
  skip_symlinks := false
  min_depth := 0
  max_depth := usizeMax

/-- C5 counterexample: in last-segment mode, when the pulled node's path has
no final component, `next_ref` returns `none` — reporting exhaustion — even
though the wrapped node iterator still has an entry to yield.  There is no
fall-through to the next pull. -/
theorem c5_counterexample :
    c5piter.next_ref = (none, { c5piter with file_iter := c5fst1 })
    ∧ (c5fst1.next).1 = some c5child := by
  constructor
  · have h1 : c5piter.file_iter.next = (some c5tree, c5fst1) := by
      rw [next_eval 5 c5piter.file_iter (by decide)]
      rfl
    simp only [PathsIter.next_ref, h1]
    rfl
  · rw [next_eval 5 c5fst1 (by decide)]
    rfl

/-- C5 amended: in last-segment mode, a pulled node whose path has no final
component makes `next_ref` (and `next`) return `none` immediately, with the
wrapped iterator advanced past that node only; the entry is not skipped in
favour of a further pull. -/
theorem c5_amended (p : PathsIter T) (f : File T) (fi : FilesIter T)
    (h1 : p.file_iter.next = (some f, fi)) (h2 : p.only_show_last_segment = true)
    (h3 : filePathFileName f.path = none) :
    p.next_ref = (none, { p with file_iter := fi })
    ∧ p.next = (none, { p with file_iter := fi }) := by
  have hr : p.next_ref = (none, { p with file_iter := fi }) := by
    simp only [PathsIter.next_ref, h1]
    have hflag : ({ p with file_iter := fi } : PathsIter T).only_show_last_segment = true := h2
    rw [if_pos hflag, h3]
    rfl
  refine ⟨hr, ?_⟩
  simp only [PathsIter.next, hr]

theorem c5_amended_witness :
    c5piter.next_ref = (none, { c5piter with file_iter := c5fst1 })
    ∧ c5piter.next = (none, { c5piter with file_iter := c5fst1 }) :=
  c5_amended c5piter c5tree c5fst1
    (by rw [next_eval 5 c5piter.file_iter (by decide)]; rfl) rfl rfl

theorem yields_length_le :
    ∀ (n : Nat) (s : FilesIter T), queueMeasure s.file_deque = n →
      s.yieldsWithDepth.length ≤ n := by
  intro n
  induction n using Nat.strong_induction_on with
  | _ n ih =>
    intro s hn
    rcases hr : s.next with ⟨o, s'⟩
    cases o with
    | none => simp [yields_none s s' hr]
    | some f =>
      rw [yields_some s f s' hr]
      have hlt : queueMeasure s'.file_deque < n := hn ▸ next_some_measure_lt n s f s' hn hr
      have := ih (queueMeasure s'.file_deque) hlt s' rfl
      simp only [List.length_cons]
      omega

/-- C7: the traversal is finite and each yielding step strictly shrinks the
total amount of queued tree material, so `next` -- whose internal retries
pop one entry each -- and the whole traversal terminate on every finite
tree under every configuration. -/
theorem c7_termination (s : FilesIter T) :
    s.yieldsWithDepth.length ≤ queueMeasure s.file_deque
    ∧ ∀ (f : File T) (s' : FilesIter T), s.next = (some f, s') →
        queueMeasure s'.file_deque < queueMeasure s.file_deque := by
  constructor
  · exact yields_length_le (queueMeasure s.file_deque) s rfl
  · intro f s' h
    exact next_some_measure_lt (queueMeasure s.file_deque) s f s' rfl h

/-- State reached after the first pull of the termination witness. -/
def c7state1 : FilesIter Unit where
  file_deque := [(exRegular [Component.normal "r", Component.normal "g"], 1),
    (exDirectory [Component.normal "r", Component.normal "d"]
      [exRegular [Component.normal "r", Component.normal "d", Component.normal "f"]], 1)]
  current_depth := 0
  files_before_directories := false
  skip_dirs := false
  skip_regular_files := false
  skip_symlinks := false
  min_depth := 0
  max_depth := usizeMax

theorem c7_termination_witness :
    ((FilesIter.new c4tree).yieldsWithDepth).length
        ≤ queueMeasure (FilesIter.new c4tree).file_deque
    ∧ queueMeasure c7state1.file_deque
        < queueMeasure (FilesIter.new c4tree).file_deque :=
  ⟨(c7_termination (FilesIter.new c4tree)).1,
   (c7_termination (FilesIter.new c4tree)).2 c4tree c7state1
     (by rw [next_eval 5 (FilesIter.new c4tree) (by decide)]; rfl)⟩

/-- C8: the empty-queue state is terminal: `next` reports exhaustion and
returns the state unchanged, so every subsequent call reports exhaustion as
well and no entry is ever re-queued. -/
theorem c8_empty_queue_terminal (s : FilesIter T) (h : s.file_deque = []) :
    s.next = (none, s) :=
  next_nil s h

/-- An iterator whose work queue is empty. -/
def c8state : FilesIter Unit where
  file_deque := []
  current_depth := 3
  files_before_directories := true
  skip_dirs := false
  skip_regular_files := false
  skip_symlinks := false
  min_depth := 0
  max_depth := usizeMax

theorem c8_empty_queue_terminal_witness : c8state.next = (none, c8state) :=
  c8_empty_queue_terminal c8state rfl

/-- C10: every builder method rewrites exactly its own configuration field
and leaves the work queue, the current depth and every other field
untouched. -/
theorem c10_builders_frame (s : FilesIter T) (b : Bool) (m : Nat) (p : PathsIter T) :
    ((s.files_before_directories' b).files_before_directories = b
      ∧ (s.files_before_directories' b).file_deque = s.file_deque
      ∧ (s.files_before_directories' b).current_depth = s.current_depth
      ∧ (s.files_before_directories' b).skip_dirs = s.skip_dirs
      ∧ (s.files_before_directories' b).skip_regular_files = s.skip_regular_files
      ∧ (s.files_before_directories' b).skip_symlinks = s.skip_symlinks
      ∧ (s.files_before_directories' b).min_depth = s.min_depth
      ∧ (s.files_before_directories' b).max_depth = s.max_depth)
    ∧ ((s.skip_dirs' b).skip_dirs = b
      ∧ (s.skip_dirs' b).file_deque = s.file_deque
      ∧ (s.skip_dirs' b).current_depth = s.current_depth
      ∧ (s.skip_dirs' b).files_before_directories = s.files_before_directories
      ∧ (s.skip_dirs' b).skip_regular_files = s.skip_regular_files
      ∧ (s.skip_dirs' b).skip_symlinks = s.skip_symlinks
      ∧ (s.skip_dirs' b).min_depth = s.min_depth
      ∧ (s.skip_dirs' b).max_depth = s.max_depth)
    ∧ ((s.skip_regular_files' b).skip_regular_files = b
      ∧ (s.skip_regular_files' b).file_deque = s.file_deque
      ∧ (s.skip_regular_files' b).current_depth = s.current_depth
      ∧ (s.skip_regular_files' b).files_before_directories = s.files_before_directories
      ∧ (s.skip_regular_files' b).skip_dirs = s.skip_dirs
      ∧ (s.skip_regular_files' b).skip_symlinks = s.skip_symlinks
      ∧ (s.skip_regular_files' b).min_depth = s.min_depth
      ∧ (s.skip_regular_files' b).max_depth = s.max_depth)
    ∧ ((s.skip_symlinks' b).skip_symlinks = b
      ∧ (s.skip_symlinks' b).file_deque = s.file_deque
      ∧ (s.skip_symlinks' b).current_depth = s.current_depth
      ∧ (s.skip_symlinks' b).files_before_directories = s.files_before_directories
      ∧ (s.skip_symlinks' b).skip_dirs = s.skip_dirs
      ∧ (s.skip_symlinks' b).skip_regular_files = s.skip_regular_files
      ∧ (s.skip_symlinks' b).min_depth = s.min_depth
      ∧ (s.skip_symlinks' b).max_depth = s.max_depth)
    ∧ ((s.min_depth' m).min_depth = m
      ∧ (s.min_depth' m).file_deque = s.file_deque
      ∧ (s.min_depth' m).current_depth = s.current_depth
      ∧ (s.min_depth' m).files_before_directories = s.files_before_directories
      ∧ (s.min_depth' m).skip_dirs = s.skip_dirs
      ∧ (s.min_depth' m).skip_regular_files = s.skip_regular_files
      ∧ (s.min_depth' m).skip_symlinks = s.skip_symlinks
      ∧ (s.min_depth' m).max_depth = s.max_depth)
    ∧ ((s.max_depth' m).max_depth = m
      ∧ (s.max_depth' m).file_deque = s.file_deque
      ∧ (s.max_depth' m).current_depth = s.current_depth
      ∧ (s.max_depth' m).files_before_directories = s.files_before_directories
      ∧ (s.max_depth' m).skip_dirs = s.skip_dirs
      ∧ (s.max_depth' m).skip_regular_files = s.skip_regular_files
      ∧ (s.max_depth' m).skip_symlinks = s.skip_symlinks
      ∧ (s.max_depth' m).min_depth = s.min_depth)
    ∧ ((p.only_show_last_segment' b).only_show_last_segment = b
      ∧ (p.only_show_last_segment' b).file_iter = p.file_iter) :=
  ⟨⟨rfl, rfl, rfl, rfl, rfl, rfl, rfl, rfl⟩,
   ⟨rfl, rfl, rfl, rfl, rfl, rfl, rfl, rfl⟩,
   ⟨rfl, rfl, rfl, rfl, rfl, rfl, rfl, rfl⟩,
   ⟨rfl, rfl, rfl, rfl, rfl, rfl, rfl, rfl⟩,
   ⟨rfl, rfl, rfl, rfl, rfl, rfl, rfl, rfl⟩,
   ⟨rfl, rfl, rfl, rfl, rfl, rfl, rfl, rfl⟩,
   ⟨rfl, rfl⟩⟩


mutual

/-- Preorder enumeration of all nodes of a tree. -/
def File.allNodes : File T → List (File T)
  | .mk p ft pl => File.mk p ft pl :: FileType.allNodesFT ft
termination_by f => sizeOf f
decreasing_by simp; omega

/-- Nodes below a type tag. -/
def FileType.allNodesFT : FileType T → List (File T)
  | .Regular => []
  | .Symlink => []
  | .Directory cs => File.allNodesList cs
termination_by ft => sizeOf ft
decreasing_by simp

/-- Nodes of a list of trees. -/
def File.allNodesList : List (File T) → List (File T)
  | [] => []
  | c :: cs => File.allNodes c ++ File.allNodesList cs
termination_by cs => sizeOf cs
decreasing_by all_goals (simp; try omega)

end

mutual

/-- Height of a tree: 1 for a leaf, 1 plus the children's maximum height for
a directory. -/
def File.height : File T → Nat
  | .mk _ ft _ => 1 + FileType.heightFT ft
termination_by f => sizeOf f
decreasing_by simp; omega

/-- Height below a type tag. -/
def FileType.heightFT : FileType T → Nat
  | .Regular => 0
  | .Symlink => 0
  | .Directory cs => File.heightList cs
termination_by ft => sizeOf ft
decreasing_by simp

/-- Maximum height of a list of trees. -/
def File.heightList : List (File T) → Nat
  | [] => 0
  | c :: cs => max (File.height c) (File.heightList cs)
termination_by cs => sizeOf cs
decreasing_by all_goals (simp; try omega)

end

/-- All tree nodes reachable from the entries of a work queue. -/
def nodesOfQueue : List (File T × Nat) → List (File T)
  | [] => []
  | e :: es => e.1.allNodes ++ nodesOfQueue es

theorem nodesOfQueue_append (l₁ l₂ : List (File T × Nat)) :
    nodesOfQueue (l₁ ++ l₂) = nodesOfQueue l₁ ++ nodesOfQueue l₂ := by
  induction l₁ with
  | nil => simp [nodesOfQueue]
  | cons e es ih => simp [nodesOfQueue, ih]

theorem nodesOfQueue_pushChildren (d : Nat) (cs : List (File T)) (q : List (File T × Nat)) :
    (nodesOfQueue (pushChildren d cs q)).Perm (File.allNodesList cs ++ nodesOfQueue q) := by
  induction cs with
  | nil => simp [pushChildren, File.allNodesList]
  | cons c cs ih =>
    have h4 : File.allNodesList (c :: cs) = File.allNodes c ++ File.allNodesList cs := by
      simp [File.allNodesList]
    by_cases h : c.file_type.is_dir = true
    · have hpc : pushChildren d (c :: cs) q = pushChildren d cs q ++ [(c, d)] := by
        simp [pushChildren, h]
      rw [hpc, nodesOfQueue_append]
      have h1 : (nodesOfQueue (pushChildren d cs q) ++ nodesOfQueue [(c, d)]).Perm
          ((File.allNodesList cs ++ nodesOfQueue q) ++ nodesOfQueue [(c, d)]) :=
        ih.append_right _
      refine h1.trans (List.perm_append_comm.trans ?_)
      have h3 : nodesOfQueue [(c, d)] = File.allNodes c := by simp [nodesOfQueue]
      rw [h3, h4, List.append_assoc]
    · have hpc : pushChildren d (c :: cs) q = (c, d) :: pushChildren d cs q := by
        simp [pushChildren, h]
      rw [hpc]
      have h1 : nodesOfQueue ((c, d) :: pushChildren d cs q)
          = File.allNodes c ++ nodesOfQueue (pushChildren d cs q) := by
        simp [nodesOfQueue]
      rw [h1, h4, List.append_assoc]
      exact ih.append_left _

theorem nodes_expandChildren (p : File T × Nat) (rest : List (File T × Nat)) :
    (p.1 :: nodesOfQueue (expandChildren p rest)).Perm
      (File.allNodes p.1 ++ nodesOfQueue rest) := by
  rcases p with ⟨f, d⟩
  cases f with
  | mk pa ft pl =>
    cases ft with
    | Directory cs =>
      have hexp : expandChildren (File.mk pa (FileType.Directory cs) pl, d) rest
          = pushChildren (d + 1) cs rest := by
        simp [expandChildren, File.file_type]
      have hall : File.allNodes (File.mk pa (FileType.Directory cs) pl)
          = File.mk pa (FileType.Directory cs) pl :: File.allNodesList cs := by
        simp [File.allNodes, FileType.allNodesFT]
      rw [hexp, hall]
      exact (nodesOfQueue_pushChildren (d + 1) cs rest).cons _
    | Regular =>
      simp [expandChildren, File.file_type, File.allNodes, FileType.allNodesFT, nodesOfQueue]
    | Symlink =>
      simp [expandChildren, File.file_type, File.allNodes, FileType.allNodesFT, nodesOfQueue]

theorem popExpand_nodes (fbd : Bool) (e : File T × Nat) (es : List (File T × Nat)) :
    ((popExpand fbd e es).1.1 :: nodesOfQueue (popExpand fbd e es).2).Perm
      (nodesOfQueue (e :: es)) := by
  by_cases hpl : (fbd || !(es.getLastD e).1.file_type.is_dir) = true
  · have hpe : popExpand fbd e es = (e, expandChildren e es) := by
      unfold popExpand
      simp only [if_pos hpl]
    rw [hpe]
    have h1 := nodes_expandChildren e es
    have h2 : nodesOfQueue (e :: es) = File.allNodes e.1 ++ nodesOfQueue es := by
      simp [nodesOfQueue]
    rw [h2]
    exact h1
  · have hpe : popExpand fbd e es
        = (es.getLastD e, expandChildren (es.getLastD e) ((e :: es).dropLast)) := by
      unfold popExpand
      simp only [if_neg hpl]
    rw [hpe]
    refine (nodes_expandChildren (es.getLastD e) ((e :: es).dropLast)).trans ?_
    have hsplit : (e :: es).dropLast ++ [es.getLastD e] = e :: es := by
      have hd := List.dropLast_append_getLast (l := e :: es) (by simp)
      rwa [List.getLast_eq_getLastD] at hd
    have h2 : nodesOfQueue (e :: es)
        = nodesOfQueue ((e :: es).dropLast) ++ File.allNodes (es.getLastD e).1 := by
      conv_lhs => rw [← hsplit]
      rw [nodesOfQueue_append]
      simp [nodesOfQueue]
    rw [h2]
    exact List.perm_append_comm

theorem popSeq_perm :
    ∀ (n : Nat) (fbd : Bool) (q : List (File T × Nat)), queueMeasure q = n →
      ((popSeq fbd q).map Prod.fst).Perm (nodesOfQueue q) := by
  intro n
  induction n using Nat.strong_induction_on with
  | _ n ih =>
    intro fbd q hn
    rcases hq : q with _ | ⟨e, es⟩
    · rw [popSeq_nil]
      simp [nodesOfQueue]
    · subst hq
      rw [popSeq_cons]
      simp only [List.map_cons]
      have hlt : queueMeasure (popExpand fbd e es).2 < n :=
        hn ▸ queueMeasure_popExpand_lt fbd e es
      have ih' := ih (queueMeasure (popExpand fbd e es).2) hlt fbd (popExpand fbd e es).2 rfl
      exact (ih'.cons (popExpand fbd e es).1.1).trans (popExpand_nodes fbd e es)


theorem height_pos (f : File T) : 1 ≤ f.height := by
  cases f with
  | mk p ft pl => simp [File.height]

theorem height_le_heightList (c : File T) (cs : List (File T)) (h : c ∈ cs) :
    c.height ≤ File.heightList cs := by
  induction cs with
  | nil => cases h
  | cons c' cs ih =>
    have hl : File.heightList (c' :: cs) = max c'.height (File.heightList cs) := by
      simp [File.heightList]
    rw [hl]
    rcases List.mem_cons.mp h with rfl | h'
    · exact le_max_left _ _
    · exact le_trans (ih h') (le_max_right _ _)

theorem getLastD_mem (e : File T × Nat) (es : List (File T × Nat)) :
    es.getLastD e ∈ e :: es := by
  have h : es.getLastD e = (e :: es).getLast (by simp) := by
    rw [List.getLast_eq_getLastD]
  rw [h]
  exact List.getLast_mem _

theorem popExpand_fst_mem (fbd : Bool) (e : File T × Nat) (es : List (File T × Nat)) :
    (popExpand fbd e es).1 ∈ e :: es := by
  by_cases hpl : (fbd || !(es.getLastD e).1.file_type.is_dir) = true
  · have hpe : (popExpand fbd e es).1 = e := by
      unfold popExpand
      simp only [if_pos hpl]
    rw [hpe]
    simp
  · have hpe : (popExpand fbd e es).1 = es.getLastD e := by
      unfold popExpand
      simp only [if_neg hpl]
    rw [hpe]
    exact getLastD_mem e es

theorem mem_pushChildren (d : Nat) (cs : List (File T)) (q : List (File T × Nat))
    (x : File T × Nat) (h : x ∈ pushChildren d cs q) :
    (x.1 ∈ cs ∧ x.2 = d) ∨ x ∈ q := by
  induction cs with
  | nil =>
    right
    simpa [pushChildren] using h
  | cons c cs ih =>
    by_cases hc : c.file_type.is_dir = true
    · rw [show pushChildren d (c :: cs) q = pushChildren d cs q ++ [(c, d)] from by
        simp [pushChildren, hc]] at h
      rcases List.mem_append.mp h with h' | h'
      · rcases ih h' with ⟨h1, h2⟩ | h1
        · exact Or.inl ⟨List.mem_cons_of_mem _ h1, h2⟩
        · exact Or.inr h1
      · rcases List.mem_singleton.mp h' with rfl
        exact Or.inl ⟨List.mem_cons_self _ _, rfl⟩
    · rw [show pushChildren d (c :: cs) q = (c, d) :: pushChildren d cs q from by
        simp [pushChildren, hc]] at h
      rcases List.mem_cons.mp h with rfl | h'
      · exact Or.inl ⟨List.mem_cons_self _ _, rfl⟩
      · rcases ih h' with ⟨h1, h2⟩ | h1
        · exact Or.inl ⟨List.mem_cons_of_mem _ h1, h2⟩
        · exact Or.inr h1

theorem expand_depth_bound (H : Nat) (p : File T × Nat) (rest : List (File T × Nat))
    (hp : p.2 + p.1.height ≤ H) (hrest : ∀ x ∈ rest, x.2 + x.1.height ≤ H) :
    ∀ x ∈ expandChildren p rest, x.2 + x.1.height ≤ H := by
  intro x hx
  rcases p with ⟨f, d⟩
  cases f with
  | mk pa ft pl =>
    cases ft with
    | Directory cs =>
      rw [show expandChildren (File.mk pa (FileType.Directory cs) pl, d) rest
          = pushChildren (d + 1) cs rest from by simp [expandChildren, File.file_type]] at hx
      rcases mem_pushChildren _ _ _ _ hx with ⟨h1, h2⟩ | h1
      · have hc := height_le_heightList x.1 cs h1
        have hh : (File.mk pa (FileType.Directory cs) pl : File T).height
            = 1 + File.heightList cs := by
          simp [File.height, FileType.heightFT]
        rw [hh] at hp
        omega
      · exact hrest x h1
    | Regular =>
      rw [show expandChildren (File.mk pa FileType.Regular pl, d) rest = rest from by
        simp [expandChildren, File.file_type]] at hx
      exact hrest x hx
    | Symlink =>
      rw [show expandChildren (File.mk pa FileType.Symlink pl, d) rest = rest from by
        simp [expandChildren, File.file_type]] at hx
      exact hrest x hx

theorem popExpand_depth_bound (H : Nat) (fbd : Bool) (e : File T × Nat)
    (es : List (File T × Nat)) (hall : ∀ x ∈ e :: es, x.2 + x.1.height ≤ H) :
    ∀ x ∈ (popExpand fbd e es).2, x.2 + x.1.height ≤ H := by
  by_cases hpl : (fbd || !(es.getLastD e).1.file_type.is_dir) = true
  · have hpe : (popExpand fbd e es).2 = expandChildren e es := by
      unfold popExpand
      simp only [if_pos hpl]
    rw [hpe]
    exact expand_depth_bound H e es (hall e (by simp))
      (fun x hx => hall x (List.mem_cons_of_mem _ hx))
  · have hpe : (popExpand fbd e es).2
        = expandChildren (es.getLastD e) ((e :: es).dropLast) := by
      unfold popExpand
      simp only [if_neg hpl]
    rw [hpe]
    exact expand_depth_bound H (es.getLastD e) ((e :: es).dropLast)
      (hall _ (getLastD_mem e es))
      (fun x hx => hall x ((List.dropLast_sublist (e :: es)).subset hx))

theorem popSeq_depth_lt (H : Nat) :
    ∀ (n : Nat) (fbd : Bool) (q : List (File T × Nat)), queueMeasure q = n →
      (∀ x ∈ q, x.2 + x.1.height ≤ H) →
      ∀ p ∈ popSeq fbd q, p.2 < H := by
  intro n
  induction n using Nat.strong_induction_on with
  | _ n ih =>
    intro fbd q hn hb p hp
    rcases hq : q with _ | ⟨e, es⟩
    · subst hq
      rw [popSeq_nil] at hp
      cases hp
    · subst hq
      rw [popSeq_cons] at hp
      rcases List.mem_cons.mp hp with rfl | hp'
      · have h1 := hb _ (popExpand_fst_mem fbd e es)
        have h2 := height_pos (popExpand fbd e es).1.1
        omega
      · have hlt : queueMeasure (popExpand fbd e es).2 < n :=
          hn ▸ queueMeasure_popExpand_lt fbd e es
        exact ih (queueMeasure (popExpand fbd e es).2) hlt fbd (popExpand fbd e es).2 rfl
          (popExpand_depth_bound H fbd e es hb) p hp'

/-- C3: with no type filters and default depth bounds (any tree whose height
fits in a `usize`), the traversal yields every node of the tree exactly
once — in both traversal-order modes, so the two modes yield the same
multiset of nodes and differ only in order. -/
theorem c3_completeness_both_orders (t : File T) (b : Bool)
    (h : File.height t ≤ usizeMax) :
    ((((FilesIter.new t).files_before_directories' b).yieldsWithDepth).map Prod.fst).Perm
      t.allNodes := by
  have h1 := yields_eq_filter_popSeq
    (queueMeasure ((FilesIter.new t).files_before_directories' b).file_deque)
    ((FilesIter.new t).files_before_directories' b) rfl
  have e1 : ((FilesIter.new t).files_before_directories' b).files_before_directories
      = b := rfl
  have e2 : ((FilesIter.new t).files_before_directories' b).file_deque = [(t, 0)] := rfl
  rw [h1, e1, e2]
  have hfilter : (popSeq b [(t, 0)]).filter
      (passCfg ((FilesIter.new t).files_before_directories' b)) = popSeq b [(t, 0)] := by
    apply List.filter_eq_self.mpr
    intro p hp
    rw [passCfg_default_fbd_eval]
    simp only [decide_eq_true_eq]
    have hlt := popSeq_depth_lt (File.height t) (queueMeasure [(t, 0)]) b [(t, 0)] rfl
      (by
        intro x hx
        rcases List.mem_singleton.mp hx with rfl
        simp) p hp
    omega
  rw [hfilter]
  refine (popSeq_perm (queueMeasure [(t, 0)]) b [(t, 0)] rfl).trans ?_
  simp [nodesOfQueue]

theorem c3_completeness_witness :
    File.height c4tree ≤ usizeMax
    ∧ ((((FilesIter.new c4tree).files_before_directories' true).yieldsWithDepth).map
        Prod.fst).Perm c4tree.allNodes := by
  have hh : File.height c4tree ≤ usizeMax := by
    have h1 : File.height c4tree = 3 := by
      simp [c4tree, exDirectory, exRegular, File.height, FileType.heightFT, File.heightList]
    rw [h1, usizeMax]
    omega
  exact ⟨hh, c3_completeness_both_orders c4tree true hh⟩


/-- Deep-then-shallow tree exhibiting a depth jump of +2 between consecutive
yields in the default configuration. -/
def c2tree : File Unit :=
  exDirectory [Component.normal "root"]
    [exDirectory [Component.normal "A"]
      [exDirectory [Component.normal "B"]
        [exDirectory [Component.normal "C"] [exRegular [Component.normal "fc"]]]],
     exDirectory [Component.normal "Z"] [exRegular [Component.normal "fz"]]]

/-- C2 counterexample: under the default configuration (directories before
files, no filters, default bounds) the iterator on `c2tree` yields the depth
sequence 0, 1, 2, 3, 1, 2, 4 — the consecutive pair (2, 4) violates
Y ≤ X + 1. -/
theorem c2_counterexample :
    ((FilesIter.new c2tree).yieldsWithDepth).map Prod.snd = [0, 1, 2, 3, 1, 2, 4]
    ∧ ¬List.Chain' (fun x y => y ≤ x + 1) [0, 1, 2, 3, 1, 2, 4] := by
  constructor
  · rw [yields_eval _ 10 (by decide)]
    decide
  · intro hch
    simp [List.chain'_cons] at hch

theorem popExpand_true (e : File T × Nat) (es : List (File T × Nat)) :
    popExpand true e es = (e, expandChildren e es) := rfl

theorem chain_le_of_head (x : File T × Nat) (l : List (File T × Nat))
    (h : List.Chain' (fun a b => a.2 ≤ b.2) (x :: l)) : ∀ z ∈ l, x.2 ≤ z.2 := by
  induction l generalizing x with
  | nil =>
    intro z hz
    cases hz
  | cons y l ih =>
    rw [List.chain'_cons] at h
    intro z hz
    rcases List.mem_cons.mp hz with rfl | hz'
    · exact h.1
    · exact le_trans h.1 (ih y h.2 z hz')

theorem chain_of_const (v : Nat) (l : List (File T × Nat)) (h : ∀ z ∈ l, z.2 = v) :
    List.Chain' (fun a b => a.2 ≤ b.2) l := by
  induction l with
  | nil => simp
  | cons a l ih =>
    rw [List.chain'_cons']
    refine ⟨?_, ih (fun z hz => h z (List.mem_cons_of_mem _ hz))⟩
    intro y hy
    rw [h y (List.mem_cons_of_mem _ (List.mem_of_mem_head? hy)),
      h a (List.mem_cons_self _ _)]

theorem pushChildren_split (d : Nat) (cs : List (File T)) (q : List (File T × Nat)) :
    pushChildren d cs q
      = ((cs.filter (fun c => !c.file_type.is_dir)).map (fun c => (c, d))) ++ q
        ++ (((cs.filter (fun c => c.file_type.is_dir)).map (fun c => (c, d))).reverse) := by
  induction cs with
  | nil => simp [pushChildren]
  | cons c cs ih =>
    by_cases h : c.file_type.is_dir = true
    · rw [show pushChildren d (c :: cs) q = pushChildren d cs q ++ [(c, d)] from by
        simp [pushChildren, h]]
      rw [ih, List.filter_cons, List.filter_cons]
      simp only [h, Bool.not_true, if_neg (by simp : ¬(false = true)), if_pos rfl,
        List.map_cons, List.reverse_cons]
      simp [List.append_assoc]
    · rw [show pushChildren d (c :: cs) q = (c, d) :: pushChildren d cs q from by
        simp [pushChildren, h]]
      rw [ih, List.filter_cons, List.filter_cons]
      have h' : c.file_type.is_dir = false := by
        simpa using h
      simp only [h', Bool.not_false, if_pos rfl, if_neg (by simp : ¬(false = true)),
        List.map_cons]
      simp

/-- Shape of the work queue maintained by the files-before-directories mode:
a block of non-directories of one single depth `mf` in front of a
non-decreasing block of directories whose depths lie in the two-level band
ending at `mf`, everything within one level of the last popped depth `e`. -/
def bandInv (q : List (File T × Nat)) (e : Nat) : Prop :=
  ∃ F D mf,
    q = F ++ D ∧
    (∀ x ∈ F, x.1.file_type.is_dir = false ∧ x.2 = mf) ∧
    (∀ x ∈ D, x.1.file_type.is_dir = true ∧ (x.2 + 1 = mf ∨ x.2 = mf)) ∧
    List.Chain' (fun a b => a.2 ≤ b.2) D ∧
    mf ≤ e + 1

theorem is_dir_directory (f : File T) (h : f.file_type.is_dir = true) :
    ∃ cs, f.file_type = FileType.Directory cs := by
  cases f with
  | mk pa ft pl =>
    cases ft with
    | Directory cs => exact ⟨cs, rfl⟩
    | Regular => simp [File.file_type, FileType.is_dir] at h
    | Symlink => simp [File.file_type, FileType.is_dir] at h

theorem expandChildren_of_not_dir (x : File T × Nat) (xs : List (File T × Nat))
    (h : x.1.file_type.is_dir = false) : expandChildren x xs = xs := by
  rcases x with ⟨f, d⟩
  cases f with
  | mk pa ft pl =>
    cases ft with
    | Directory cs => simp [File.file_type, FileType.is_dir] at h
    | Regular => simp [expandChildren, File.file_type]
    | Symlink => simp [expandChildren, File.file_type]

theorem expandChildren_of_dir (x : File T × Nat) (xs : List (File T × Nat))
    (cs : List (File T)) (h : x.1.file_type = FileType.Directory cs) :
    expandChildren x xs = pushChildren (x.2 + 1) cs xs := by
  simp [expandChildren, h]

theorem bandInv_head_le (d : Nat) (x : File T × Nat) (xs : List (File T × Nat))
    (h : bandInv (x :: xs) d) : x.2 ≤ d + 1 := by
  obtain ⟨F, D, mf, hFD, hF, hD, hch, hmf⟩ := h
  cases F with
  | nil =>
    simp only [List.nil_append] at hFD
    have hx := hD x (by rw [← hFD]; exact List.mem_cons_self _ _)
    omega
  | cons f F' =>
    have hfx : x = f := by
      simpa using congrArg (fun l => l.headD x) hFD
    have := hF f (List.mem_cons_self _ _)
    rw [hfx]
    omega

theorem bandInv_step (d : Nat) (x : File T × Nat) (xs : List (File T × Nat))
    (h : bandInv (x :: xs) d) : bandInv (expandChildren x xs) x.2 := by
  obtain ⟨F, D, mf, hFD, hF, hD, hch, hmf⟩ := h
  cases F with
  | cons f F' =>
    obtain ⟨rfl, rfl⟩ : x = f ∧ xs = F' ++ D := by
      rw [List.cons_append] at hFD
      exact ⟨(List.cons.injEq _ _ _ _ ▸ hFD).1, (List.cons.injEq _ _ _ _ ▸ hFD).2⟩
    have hfd : x.1.file_type.is_dir = false := (hF x (List.mem_cons_self _ _)).1
    have hxm : x.2 = mf := (hF x (List.mem_cons_self _ _)).2
    rw [expandChildren_of_not_dir x _ hfd]
    exact ⟨F', D, mf, rfl, fun y hy => hF y (List.mem_cons_of_mem _ hy), hD, hch, by omega⟩
  | nil =>
    simp only [List.nil_append] at hFD
    have hxd := hD x (by rw [← hFD]; exact List.mem_cons_self _ _)
    obtain ⟨cs, hft⟩ := is_dir_directory x.1 hxd.1
    have hxs : ∀ z ∈ xs, z ∈ D := by
      intro z hz
      rw [← hFD]
      exact List.mem_cons_of_mem _ hz
    have hxsle : ∀ z ∈ xs, x.2 ≤ z.2 := by
      have hch' : List.Chain' (fun a b => a.2 ≤ b.2) (x :: xs) := by
        rw [hFD]
        exact hch
      exact chain_le_of_head x xs hch'
    rw [expandChildren_of_dir x xs cs hft, pushChildren_split, List.append_assoc]
    refine ⟨(cs.filter (fun c => !c.file_type.is_dir)).map (fun c => (c, x.2 + 1)),
      xs ++ ((cs.filter (fun c => c.file_type.is_dir)).map (fun c => (c, x.2 + 1))).reverse,
      x.2 + 1, rfl, ?_, ?_, ?_, le_refl _⟩
    · intro y hy
      obtain ⟨c, hc, rfl⟩ := List.mem_map.mp hy
      have := List.mem_filter.mp hc
      refine ⟨by simpa using this.2, rfl⟩
    · intro y hy
      rcases List.mem_append.mp hy with hy' | hy'
      · have hz := hD y (hxs y hy')
        have hzle := hxsle y hy'
        exact ⟨hz.1, by omega⟩
      · obtain ⟨c, hc, rfl⟩ := List.mem_map.mp (List.mem_reverse.mp hy')
        exact ⟨(List.mem_filter.mp hc).2, Or.inr rfl⟩
    · refine List.Chain'.append ?_ ?_ ?_
      · have hch' : List.Chain' (fun a b => a.2 ≤ b.2) (x :: xs) := by
          rw [hFD]
          exact hch
        exact (List.chain'_cons'.mp hch').2
      · apply chain_of_const (x.2 + 1)
        intro z hz
        obtain ⟨c, hc, rfl⟩ := List.mem_map.mp (List.mem_reverse.mp hz)
        rfl
      · intro a ha b hb
        have haxs : a ∈ xs := List.mem_of_mem_getLast? ha
        have hza := hD a (hxs a haxs)
        have : a.2 ≤ mf := by omega
        have hbv : b.2 = x.2 + 1 := by
          obtain ⟨c, hc, rfl⟩ := List.mem_map.mp
            (List.mem_reverse.mp (List.mem_of_mem_head? hb))
          rfl
        have : mf ≤ x.2 + 1 := by omega
        omega

theorem band_chain :
    ∀ (n : Nat) (q : List (File T × Nat)) (d : Nat), queueMeasure q = n → bandInv q d →
      (∀ p ∈ (popSeq true q).head?, p.2 ≤ d + 1)
      ∧ List.Chain' (fun a b => b.2 ≤ a.2 + 1) (popSeq true q) := by
  intro n
  induction n using Nat.strong_induction_on with
  | _ n ih =>
    intro q d hn hband
    rcases hq : q with _ | ⟨x, xs⟩
    · subst hq
      rw [popSeq_nil]
      exact ⟨by simp, by simp⟩
    · subst hq
      rw [popSeq_cons, popExpand_true]
      have hhead := bandInv_head_le d x xs hband
      have hstep := bandInv_step d x xs hband
      have hlt : queueMeasure (expandChildren x xs) < n := by
        have h2 : queueMeasure (expandChildren x xs) + 1 = queueMeasure (x :: xs) :=
          queueMeasure_popExpand true x xs
        omega
      have hrec := ih (queueMeasure (expandChildren x xs)) hlt (expandChildren x xs) x.2
        rfl hstep
      refine ⟨?_, ?_⟩
      · intro p hp
        simp only [List.head?_cons, Option.mem_def, Option.some.injEq] at hp
        subst hp
        exact hhead
      · rw [List.chain'_cons']
        exact ⟨fun y hy => hrec.1 y hy, hrec.2⟩

theorem bandInv_init (t : File T) : bandInv [(t, 0)] 0 := by
  by_cases h : t.file_type.is_dir = true
  · exact ⟨[], [(t, 0)], 1, rfl, by simp,
      by
        intro y hy
        rcases List.mem_singleton.mp hy with rfl
        exact ⟨h, Or.inl rfl⟩,
      by simp, by omega⟩
  · exact ⟨[(t, 0)], [], 0, by simp, by
      intro y hy
      rcases List.mem_singleton.mp hy with rfl
      exact ⟨by simpa using h, rfl⟩,
      by simp, by simp, by omega⟩

theorem chain_filter_below (a b : Nat) :
    ∀ (l : List (File T × Nat)) (w : File T × Nat),
      List.Chain' (fun p q => q.2 ≤ p.2 + 1) (w :: l) → w.2 < a →
      ∀ y ∈ (l.filter (fun p => decide (a ≤ p.2 ∧ p.2 ≤ b))).head?, y.2 ≤ a := by
  intro l
  induction l with
  | nil =>
    intro w hch hw y hy
    simp at hy
  | cons z l' ih =>
    intro w hch hw y hy
    rw [List.chain'_cons] at hch
    by_cases hz : a ≤ z.2 ∧ z.2 ≤ b
    · rw [List.filter_cons, if_pos (decide_eq_true hz)] at hy
      simp only [List.head?_cons, Option.mem_def, Option.some.injEq] at hy
      subst hy
      omega
    · rw [List.filter_cons, if_neg (by simpa using hz)] at hy
      have hyP : a ≤ y.2 ∧ y.2 ≤ b := by
        have hym := List.mem_of_mem_head? hy
        simpa using (List.mem_filter.mp hym).2
      rcases Nat.lt_or_ge z.2 a with hlt | hge
      · exact ih z hch.2 hlt y hy
      · omega

theorem chain_filter_head (a b : Nat) (l : List (File T × Nat)) (x : File T × Nat)
    (hch : List.Chain' (fun p q => q.2 ≤ p.2 + 1) (x :: l))
    (hxa : a ≤ x.2) (hxb : x.2 ≤ b) :
    ∀ y ∈ (l.filter (fun p => decide (a ≤ p.2 ∧ p.2 ≤ b))).head?, y.2 ≤ x.2 + 1 := by
  cases l with
  | nil =>
    intro y hy
    simp at hy
  | cons z l' =>
    rw [List.chain'_cons] at hch
    intro y hy
    by_cases hz : a ≤ z.2 ∧ z.2 ≤ b
    · rw [List.filter_cons, if_pos (decide_eq_true hz)] at hy
      simp only [List.head?_cons, Option.mem_def, Option.some.injEq] at hy
      subst hy
      omega
    · rw [List.filter_cons, if_neg (by simpa using hz)] at hy
      have hyP : a ≤ y.2 ∧ y.2 ≤ b := by
        have hym := List.mem_of_mem_head? hy
        simpa using (List.mem_filter.mp hym).2
      rcases Nat.lt_or_ge z.2 a with hlt | hge
      · have := chain_filter_below a b l' z hch.2 hlt y hy
        omega
      · have hout : z.2 < a ∨ b < z.2 := by omega
        have hzx := hch.1
        omega

/-- Interval filtering preserves the one-step depth-climb bound: removing
the entries whose depth is outside `[a, b]` from a sequence whose
consecutive depths satisfy Y ≤ X + 1 leaves a sequence with the same
property (a below-interval gap re-enters at depth at most `a`, and an
above-interval gap can only be entered from depth `b` itself). -/
theorem chain_filter_interval (a b : Nat) :
    ∀ (l : List (File T × Nat)),
      List.Chain' (fun p q => q.2 ≤ p.2 + 1) l →
      List.Chain' (fun p q => q.2 ≤ p.2 + 1)
        (l.filter (fun p => decide (a ≤ p.2 ∧ p.2 ≤ b))) := by
  intro l
  induction l with
  | nil =>
    intro hch
    simp
  | cons x l' ih =>
    intro hch
    have hch' := (List.chain'_cons'.mp hch).2
    by_cases hx : a ≤ x.2 ∧ x.2 ≤ b
    · rw [List.filter_cons, if_pos (decide_eq_true hx)]
      rw [List.chain'_cons']
      exact ⟨chain_filter_head a b l' x hch hx.1 hx.2, ih hch'⟩
    · rw [List.filter_cons, if_neg (by simpa using hx)]
      exact ih hch'

/-- C2 amended: in files-before-directories mode with no type-skip filters,
under arbitrary depth bounds `min_depth(a).max_depth(b)` (the default bounds
included), consecutive yielded depths X then Y always satisfy Y ≤ X + 1.
The unfiltered files-before-directories pop sequence climbs by at most one
level per step (the deque band invariant), and interval filtering of such a
sequence preserves the bound. -/
theorem c2_fbd_depth_step (t : File T) (a b : Nat) :
    List.Chain' (fun p q => q.2 ≤ p.2 + 1)
      (((((FilesIter.new t).files_before_directories' true).min_depth' a).max_depth'
        b).yieldsWithDepth) := by
  have h1 := yields_eq_filter_popSeq
    (queueMeasure ((((FilesIter.new t).files_before_directories' true).min_depth'
      a).max_depth' b).file_deque)
    ((((FilesIter.new t).files_before_directories' true).min_depth' a).max_depth' b) rfl
  have e1 : ((((FilesIter.new t).files_before_directories' true).min_depth'
      a).max_depth' b).files_before_directories = true := rfl
  have e2 : ((((FilesIter.new t).files_before_directories' true).min_depth'
      a).max_depth' b).file_deque = [(t, 0)] := rfl
  rw [h1, e1, e2]
  have hpass : passCfg ((((FilesIter.new t).files_before_directories' true).min_depth'
      a).max_depth' b) = fun p => decide (a ≤ p.2 ∧ p.2 ≤ b) := by
    funext p
    rw [passCfg_noskip _ _ rfl rfl]
    rfl
  rw [hpass]
  exact chain_filter_interval a b (popSeq true [(t, 0)])
    (band_chain (queueMeasure [(t, 0)]) [(t, 0)] 0 rfl (bandInv_init t)).2


theorem stepState_left (s : FilesIter T) (e : File T × Nat) (es : List (File T × Nat))
    (hc : (s.files_before_directories || !(es.getLastD e).1.file_type.is_dir) = true) :
    stepState s e es =
      { s with current_depth := e.2, file_deque := expandChildren e es } := by
  unfold stepState popExpand
  simp only [if_pos hc]

theorem stepState_right (s : FilesIter T) (e : File T × Nat) (es : List (File T × Nat))
    (hc : ¬(s.files_before_directories || !(es.getLastD e).1.file_type.is_dir) = true) :
    stepState s e es =
      { s with current_depth := (es.getLastD e).2,
               file_deque := expandChildren (es.getLastD e) ((e :: es).dropLast) } := by
  unfold stepState popExpand
  simp only [if_neg hc]

theorem popExpand_left (s : FilesIter T) (e : File T × Nat) (es : List (File T × Nat))
    (hc : (s.files_before_directories || !(es.getLastD e).1.file_type.is_dir) = true) :
    popExpand s.files_before_directories e es = (e, expandChildren e es) := by
  unfold popExpand
  simp only [if_pos hc]

theorem popExpand_right (s : FilesIter T) (e : File T × Nat) (es : List (File T × Nat))
    (hc : ¬(s.files_before_directories || !(es.getLastD e).1.file_type.is_dir) = true) :
    popExpand s.files_before_directories e es
      = (es.getLastD e, expandChildren (es.getLastD e) ((e :: es).dropLast)) := by
  unfold popExpand
  simp only [if_neg hc]

theorem nextSafe_eq_next :
    ∀ (n : Nat) (s : FilesIter T), queueMeasure s.file_deque = n →
      s.nextSafe = some s.next := by
  intro n
  induction n using Nat.strong_induction_on with
  | _ n ih =>
    intro s hn
    rw [FilesIter.nextSafe]
    split
    · rename_i hie
      rw [next_nil s (List.isEmpty_iff.mp hie)]
    · rename_i hie
      rcases hq : s.file_deque with _ | ⟨e, es⟩
      · rw [hq] at hie
        simp at hie
      · split
        · rename_i heq
          rw [List.getLast?_eq_getLast _ (by simp)] at heq
          cases heq
        · rename_i back heq
          have hback : back = es.getLastD e := by
            rw [List.getLast?_eq_getLast _ (by simp), List.getLast_eq_getLastD] at heq
            exact (Option.some_injective _ heq).symm
          subst hback
          dsimp only
          split
          · rename_i heq2
            by_cases hc : (s.files_before_directories
                || !(es.getLastD e).1.file_type.is_dir) = true
            · rw [if_pos hc] at heq2
              simp at heq2
            · rw [if_neg hc, List.getLast?_eq_getLast _ (by simp)] at heq2
              cases heq2
          · rename_i popped heq2
            by_cases hc : (s.files_before_directories
                || !(es.getLastD e).1.file_type.is_dir) = true
            · rw [if_pos hc] at heq2
              have hpe : popped = e := by
                simp only [List.head?_cons, Option.some.injEq] at heq2
                exact heq2.symm
              subst hpe
              rw [if_pos hc]
              simp only [List.tail_cons]
              have hself :
                  ({ s with
                      current_depth := popped.2
                      file_deque := expandChildren popped es } : FilesIter T)
                  = stepState s popped es := by
                rw [stepState_left s popped es hc]
              have hlt : queueMeasure (stepState s popped es).file_deque < n := by
                have h2 : queueMeasure (stepState s popped es).file_deque + 1
                    = queueMeasure (popped :: es) :=
                  queueMeasure_popExpand s.files_before_directories popped es
                rw [hq] at hn
                omega
              by_cases h1 : (decide (s.min_depth > popped.2)
                  || decide (s.max_depth < popped.2)) = true
              · rw [if_pos h1]
                have hpass : passCfg s (popExpand s.files_before_directories popped es).1
                    = false := by
                  rw [popExpand_left s popped es hc]
                  show passCfg s popped = false
                  simp only [passCfg, h1, Bool.not_true, Bool.false_and]
                rw [next_cons_skip s popped es hq hpass, hself]
                exact ih (queueMeasure (stepState s popped es).file_deque) hlt _ rfl
              · rw [if_neg h1]
                by_cases h2 : (s.skip_regular_files && popped.1.file_type.is_regular
                    || s.skip_dirs && popped.1.file_type.is_dir
                    || s.skip_dirs && popped.1.file_type.is_dir) = true
                · rw [if_pos h2]
                  have hpass : passCfg s (popExpand s.files_before_directories popped es).1
                      = false := by
                    rw [popExpand_left s popped es hc]
                    simp only [Bool.not_eq_true] at h1
                    show passCfg s popped = false
                    simp only [passCfg, h1, h2, Bool.not_true, Bool.not_false, Bool.true_and,
                      Bool.and_false]
                  rw [next_cons_skip s popped es hq hpass, hself]
                  exact ih (queueMeasure (stepState s popped es).file_deque) hlt _ rfl
                · rw [if_neg h2]
                  have hpass : passCfg s (popExpand s.files_before_directories popped es).1
                      = true := by
                    rw [popExpand_left s popped es hc]
                    simp only [Bool.not_eq_true] at h1 h2
                    show passCfg s popped = true
                    simp only [passCfg, h1, h2, Bool.not_false, Bool.true_and, Bool.and_true]
                  rw [next_cons_yield s popped es hq hpass, popExpand_left s popped es hc,
                    hself]
            · rw [if_neg hc, List.getLast?_eq_getLast _ (by simp),
                List.getLast_eq_getLastD] at heq2
              have hpe : popped = es.getLastD e := by
                simp only [Option.some.injEq] at heq2
                exact heq2.symm
              subst hpe
              rw [if_neg hc]
              have hself :
                  ({ s with
                      current_depth := (es.getLastD e).2
                      file_deque := expandChildren (es.getLastD e) ((e :: es).dropLast) }
                    : FilesIter T)
                  = stepState s e es := by
                rw [stepState_right s e es hc]
              have hlt : queueMeasure (stepState s e es).file_deque < n := by
                have h2 : queueMeasure (stepState s e es).file_deque + 1
                    = queueMeasure (e :: es) :=
                  queueMeasure_popExpand s.files_before_directories e es
                rw [hq] at hn
                omega
              by_cases h1 : (decide (s.min_depth > (es.getLastD e).2)
                  || decide (s.max_depth < (es.getLastD e).2)) = true
              · rw [if_pos h1]
                have hpass : passCfg s (popExpand s.files_before_directories e es).1
                    = false := by
                  rw [popExpand_right s e es hc]
                  show passCfg s (es.getLastD e) = false
                  simp only [passCfg, h1, Bool.not_true, Bool.false_and]
                rw [next_cons_skip s e es hq hpass, hself]
                exact ih (queueMeasure (stepState s e es).file_deque) hlt _ rfl
              · rw [if_neg h1]
                by_cases h2 : (s.skip_regular_files && (es.getLastD e).1.file_type.is_regular
                    || s.skip_dirs && (es.getLastD e).1.file_type.is_dir
                    || s.skip_dirs && (es.getLastD e).1.file_type.is_dir) = true
                · rw [if_pos h2]
                  have hpass : passCfg s (popExpand s.files_before_directories e es).1
                      = false := by
                    rw [popExpand_right s e es hc]
                    simp only [Bool.not_eq_true] at h1
                    show passCfg s (es.getLastD e) = false
                    simp only [passCfg, h1, h2, Bool.not_true, Bool.not_false, Bool.true_and,
                      Bool.and_false]
                  rw [next_cons_skip s e es hq hpass, hself]
                  exact ih (queueMeasure (stepState s e es).file_deque) hlt _ rfl
                · rw [if_neg h2]
                  have hpass : passCfg s (popExpand s.files_before_directories e es).1
                      = true := by
                    rw [popExpand_right s e es hc]
                    simp only [Bool.not_eq_true] at h1 h2
                    show passCfg s (es.getLastD e) = true
                    simp only [passCfg, h1, h2, Bool.not_false, Bool.true_and, Bool.and_true]
                  rw [next_cons_yield s e es hq hpass, popExpand_right s e es hc, hself]

/-- C9: the queue accesses inside `FilesIter::next` cannot fail: the
instrumented variant, in which every `.unwrap()`-guarded access (`back()`,
`pop_front()`, `pop_back()`) returns its fallible result and a failure
aborts the call the way the Rust unwrap would panic, always succeeds and
computes exactly `next` — on every state, tree and configuration. -/
theorem c9_no_panic (s : FilesIter T) : s.nextSafe = some s.next :=
  nextSafe_eq_next (queueMeasure s.file_deque) s rfl


end Dotao
